import Mathlib

/-!
Verification of the nt-box package manager (registry client, installer,
native builder) against its natural-language specification.

The C++ sources are shallowly embedded: strings are `List Char`, the
filesystem and network are explicit parameters, and every scanning loop of
the hand-rolled JSON parser is reproduced position-by-position (fuelled
where the C++ loop is a `while`).  Each claim of the specification is then
settled by a theorem about these definitions.
-/

namespace Box

/-- Character list standing for a C++ `std::string`. -/
abbrev Str := List Char

/-- Shorthand turning a Lean string literal into the embedded representation. -/
def strL (s : String) : Str := s.toList

/-! ## Basic string scanning primitives (mirroring `std::string` operations) -/

/-- Whitespace set used by the installer's trimming code: `" \t\r\n"`. -/
def wsChar (c : Char) : Bool := c = ' ' || c = '\t' || c = '\r' || c = '\n'

/-- Boolean prefix test; `isPre p s` is `s.find(p) == 0` for the scanner. -/
def isPre : Str → Str → Bool
  | [], _ => true
  | _ :: _, [] => false
  | a :: p, b :: s => a = b && isPre p s

/-- Boolean substring test; `containsSub p s` is `s.find(p) != npos`. -/
def containsSub : Str → Str → Bool
  | pat, [] => isPre pat []
  | pat, s@(_ :: t) => isPre pat s || containsSub pat t

/-- Helper for `findCharFrom`: scan a suffix, tracking the absolute index. -/
def findFromAux (p : Char → Bool) : Str → Nat → Option Nat
  | [], _ => none
  | c :: t, i => if p c then some i else findFromAux p t (i + 1)

/-- Position of the first occurrence of `c` at or after `pos`:
`s.find(c, pos)`, with `none` for `npos`. -/
def findCharFrom (s : Str) (c : Char) (pos : Nat) : Option Nat :=
  findFromAux (fun x => x = c) (s.drop pos) pos

/-- Helper for `findSubFrom`: scan a suffix for `pat`, tracking the index. -/
def findSubAux : Str → Str → Nat → Option Nat
  | pat, [], i => if isPre pat [] then some i else none
  | pat, s@(_ :: t), i => if isPre pat s then some i else findSubAux pat t (i + 1)

/-- Position of the first occurrence of substring `pat` at or after `pos`:
`s.find(pat, pos)`, with `none` for `npos`. -/
def findSubFrom (s pat : Str) (pos : Nat) : Option Nat :=
  findSubAux pat (s.drop pos) pos

/-- `s.substr(start, len)`. -/
def substr (s : Str) (start len : Nat) : Str := (s.drop start).take len

/-- Comparison of two `find` results under C++ `npos` semantics
(`none` compares as the largest value). -/
def optLt : Option Nat → Option Nat → Bool
  | none, _ => false
  | some _, none => true
  | some a, some b => a < b

/-- Trimming as done by the installer:
`substr(find_first_not_of(" \t\r\n"), find_last_not_of(..) - .. + 1)`. -/
def trimChars (s : Str) : Str :=
  (((s.dropWhile wsChar).reverse.dropWhile wsChar)).reverse

/-- Split into lines with `std::getline` semantics: the final fragment is
yielded without a terminator, and a trailing newline yields no extra line. -/
def linesAux : Str → Str → List Str
  | [], acc => [acc.reverse]
  | c :: t, acc =>
    if c = '\n' then
      match t with
      | [] => [acc.reverse]
      | _ :: _ => acc.reverse :: linesAux t []
    else linesAux t (c :: acc)

/-- All lines of a string, `std::getline` style (empty input has no lines). -/
def linesOf : Str → List Str
  | [] => []
  | s@(_ :: _) => linesAux s []

/-- Re-serialize lines the way the installer writes `.quark` back:
every line, including the last, is followed by `"\n"`. -/
def joinNl (ls : List Str) : Str :=
  ls.foldr (fun l acc => l ++ '\n' :: acc) []

/-- Boolean suffix test (used to state byte-preservation at file tails). -/
def isSuffix (p s : Str) : Bool := isPre p.reverse s.reverse

/-! ## Platform (platform.cpp) -/

/-- The closed set of host operating systems (`Platform::OS`). -/
inductive OS where
  | linux
  | windows
  | macos
  | unknown
deriving DecidableEq, Repr

/-- `Platform::getOSString`. -/
def osString : OS → Str
  | .linux => strL "Linux"
  | .windows => strL "Windows"
  | .macos => strL "macOS"
  | .unknown => strL "Unknown"

/-- `Platform::getLibraryExtension`. -/
def libExt : OS → Str
  | .linux => strL ".so"
  | .windows => strL ".dll"
  | .macos => strL ".dylib"
  | .unknown => strL ".so"

/-! ## Builder (builder.cpp) -/

/-- The parts of the process environment the Builder can observe: the
`MSYSTEM` variable and whether `clang++` is found on `PATH` (the outcome of
`system("which clang++ > /dev/null 2>&1") == 0`). -/
structure BuildEnv where
  msystem : Option Str
  clangOnPath : Bool

/-- `Builder::getCompiler` (builder.cpp:18-30).  On Windows it returns
`"cl"` unconditionally — the function never reads `MSYSTEM`; on other
systems it probes `PATH` for `clang++` and falls back to `g++`. -/
def getCompiler (os : OS) (env : BuildEnv) : Str :=
  if os = OS.windows then strL "cl"
  else if env.clangOnPath then strL "clang++" else strL "g++"

/-- File-existence check against an explicit filesystem, standing for
`std::ifstream(path).good()`. -/
def fileExists (fs : List Str) (p : Str) : Bool := fs.contains p

/-- Source-file selection performed inside `Builder::generateBuildCommand`
(builder.cpp:153-172): `native.cpp` first, otherwise the first existing of
`src/native.cpp`, `src/main.cpp`, `source/native.cpp`, `lib/native.cpp`;
if none exists the primary path is kept (and compilation later fails). -/
def generateBuildCommandSource (fs : List Str) (sourcePath : Str) : Str :=
  let primary := sourcePath ++ strL "/native.cpp"
  if fileExists fs primary then primary
  else
    match [sourcePath ++ strL "/src/native.cpp",
           sourcePath ++ strL "/src/main.cpp",
           sourcePath ++ strL "/source/native.cpp",
           sourcePath ++ strL "/lib/native.cpp"].find? (fileExists fs) with
    | some p => p
    | none => primary

/-- Existence check at the top of `Builder::buildFromSource`
(builder.cpp:407-435): `native.cpp` first, otherwise the first existing of
`src/main.cpp`, `source/native.cpp`, `lib/native.cpp` — note this fallback
list does not include `src/native.cpp`. -/
def buildFromSourceCheck (fs : List Str) (sourcePath : Str) : Option Str :=
  if fileExists fs (sourcePath ++ strL "/native.cpp") then
    some (sourcePath ++ strL "/native.cpp")
  else
    [sourcePath ++ strL "/src/main.cpp",
     sourcePath ++ strL "/source/native.cpp",
     sourcePath ++ strL "/lib/native.cpp"].find? (fileExists fs)

/-- Success of `Builder::buildFromSource` up to its side effects: fails when
the existence check fails; otherwise succeeds iff the shim was found (else
`generateBuildCommand` returns `""`) and the compiler run succeeded. -/
def buildFromSourceResult (fs : List Str) (sourcePath : Str)
    (shimFound execOk : Bool) : Bool :=
  match buildFromSourceCheck fs sourcePath with
  | none => false
  | some _ => shimFound && execOk

/-! ## Registry data model (registry.h) -/

/-- `box::GitMetadata`. -/
structure GitMetadata where
  url : Str
  ref : Str
deriving DecidableEq, Repr

/-- `box::VersionMetadata` (the unused `deps` map is omitted). -/
structure VersionMetadata where
  description : Str
  entryLinux : Str
  entryWin : Str
  entryMac : Str
  git : GitMetadata
deriving DecidableEq, Repr

/-- `box::ModuleMetadata`; `versions` is the key-to-metadata map, kept as an
association list (`std::map` insertion overwrites an existing key). -/
structure ModuleMetadata where
  name : Str
  description : Str
  author : Str
  license : Str
  repository : Str
  latest : Str
  versions : List (Str × VersionMetadata)
deriving DecidableEq, Repr

/-- Metadata with only the `name` field set, as built at the top of
`Registry::fetchModuleMetadata`. -/
def emptyMetadata (moduleName : Str) : ModuleMetadata :=
  ⟨moduleName, [], [], [], [], [], []⟩

/-- Lookup in the `versions` map (`metadata.versions.find(v)`). -/
def lookupVer (vs : List (Str × VersionMetadata)) (k : Str) :
    Option VersionMetadata :=
  match vs.find? (fun p => p.1 == k) with
  | some p => some p.2
  | none => none

/-- `std::map` style insertion: overwrite the binding if the key exists,
otherwise append. -/
def assocSet (vs : List (Str × VersionMetadata)) (k : Str)
    (v : VersionMetadata) : List (Str × VersionMetadata) :=
  if vs.any (fun p => p.1 == k) then
    vs.map (fun p => if p.1 == k then (k, v) else p)
  else vs ++ [(k, v)]

/-! ## Registry index parsing (registry.cpp) -/

/-- The registry base URL set once in the `Registry` constructor and never
changed afterwards (registry.cpp:26-29). -/
def registryURL : Str :=
  strL "https://raw.githubusercontent.com/neutron-modules/nur/refs/heads/main"

/-- Relative-URL resolution applied by `Registry::parseIndex`
(registry.cpp:141-144): a URL whose first character is `.` is replaced by
the base URL concatenated with the URL minus that dot; anything else is
kept verbatim. -/
def resolveURL (base u : Str) : Str :=
  if u.head? = some '.' then base ++ u.tail else u

/-- The entry-scanning loop of `Registry::parseIndex` (registry.cpp:121-152),
parameterised by the URL conversion applied before storing.  Each round
reads a quoted name, a quoted URL, stores the converted pair, then stops if
a `}` occurs before the next `"`.  The fuel bounds the `while` loop. -/
def parseIndexPairsAux (convert : Str → Str) (content : Str) :
    Nat → Nat → List (Str × Str)
  | _, 0 => []
  | pos, fuel + 1 =>
    match findCharFrom content '"' pos with
    | none => []
    | some nameStart =>
      match findCharFrom content '"' (nameStart + 1) with
      | none => []
      | some nameEnd =>
        let moduleName := substr content (nameStart + 1) (nameEnd - nameStart - 1)
        match findCharFrom content '"' (nameEnd + 1) with
        | none => []
        | some urlStart =>
          match findCharFrom content '"' (urlStart + 1) with
          | none => []
          | some urlEnd =>
            let moduleURL := convert (substr content (urlStart + 1) (urlEnd - urlStart - 1))
            let rest :=
              if optLt (findCharFrom content '}' (urlEnd + 1))
                  (findCharFrom content '"' (urlEnd + 1)) then []
              else parseIndexPairsAux convert content (urlEnd + 1) fuel
            (moduleName, moduleURL) :: rest

/-- The name-to-URL pairs produced by `Registry::parseIndex` (in scan
order; the `std::map` it fills resolves duplicate names to the last pair). -/
def parseIndexPairs (content : Str) : List (Str × Str) :=
  match findSubFrom content (strL "\"modules\"") 0 with
  | none => []
  | some modulesPos =>
    match findCharFrom content '{' modulesPos with
    | none => []
    | some openBrace =>
      parseIndexPairsAux (resolveURL registryURL) content (openBrace + 1)
        (content.length + 1)

/-- The same scan with no URL conversion: the raw `<name> -> <url>` pairs of
the index document, used to state what `parseIndex` stores for each of
them. -/
def rawIndexPairs (content : Str) : List (Str × Str) :=
  match findSubFrom content (strL "\"modules\"") 0 with
  | none => []
  | some modulesPos =>
    match findCharFrom content '{' modulesPos with
    | none => []
    | some openBrace =>
      parseIndexPairsAux (fun u => u) content (openBrace + 1)
        (content.length + 1)

/-- Return value of `Registry::fetchIndex` combined with `parseIndex`
(registry.cpp:84-156): false on empty body, missing `"modules"` key or
missing opening brace, and otherwise true iff at least one entry parsed. -/
def parseIndexOk (content : Str) : Bool :=
  if content.isEmpty then false
  else
    match findSubFrom content (strL "\"modules\"") 0 with
    | none => false
    | some modulesPos =>
      match findCharFrom content '{' modulesPos with
      | none => false
      | some openBrace =>
        !(parseIndexPairsAux (resolveURL registryURL) content (openBrace + 1)
            (content.length + 1)).isEmpty

/-- Lookup in the populated module index; duplicate names resolve to the
last stored pair, as with `std::map` assignment. -/
def idxLookup (idx : List (Str × Str)) (n : Str) : Option Str :=
  match idx.reverse.find? (fun p => p.1 == n) with
  | some p => some p.2
  | none => none

/-- `Registry::getModuleURL` (registry.cpp:158-178): look the name up in the
index, then re-apply dot resolution (against the path part for a `file://`
base, against the base URL otherwise); empty string when unknown. -/
def getModuleURL (idx : List (Str × Str)) (moduleName : Str) : Str :=
  match idxLookup idx moduleName with
  | none => []
  | some modulePath =>
    if isPre (strL "file://") registryURL then
      (if modulePath.head? = some '.' then registryURL.drop 7 ++ modulePath.tail
       else modulePath)
    else resolveURL registryURL modulePath

/-! ## Manifest parsing (`Registry::fetchModuleMetadata`, registry.cpp:180-291) -/

/-- The `extractValue` lambda (registry.cpp:201-216): find `"key"` at or
after `startPos`, then the next `:`, then the next double-quoted string —
searching forward over the whole remaining document, with `""` on any
failure. -/
def extractValue (content : Str) (key : Str) (startPos : Nat) : Str :=
  match findSubFrom content ('"' :: key ++ ['"']) startPos with
  | none => []
  | some pos =>
    match findCharFrom content ':' pos with
    | none => []
    | some colonPos =>
      match findCharFrom content '"' colonPos with
      | none => []
      | some valueStart =>
        match findCharFrom content '"' (valueStart + 1) with
        | none => []
        | some valueEnd => substr content (valueStart + 1) (valueEnd - valueStart - 1)

/-- Brace counting for the end of the `versions` object
(registry.cpp:234-245): scan from the character after the opening brace
with count 1; `none` when the object never closes. -/
def closeBraceAux : Str → Nat → Nat → Option Nat
  | [], _, _ => none
  | c :: t, i, bc =>
    if c = '{' then closeBraceAux t (i + 1) (bc + 1)
    else if c = '}' then
      (if bc = 1 then some i else closeBraceAux t (i + 1) (bc - 1))
    else closeBraceAux t (i + 1) bc

/-- Index one past which the `versions` object ends; `content.length()` when
brace counting never reaches zero, as in the C++ initialisation. -/
def endOfVersionsOf (content : Str) (versionObjStart : Nat) : Nat :=
  match closeBraceAux (content.drop (versionObjStart + 1)) (versionObjStart + 1) 1 with
  | some i => i
  | none => content.length

/-- The advance to the next version key (registry.cpp:278-285): walk from
`pos` while the brace count stays positive and `pos < endOfVersions`. -/
def advanceAux : Str → Nat → Nat → Nat → Nat
  | [], pos, _, _ => pos
  | c :: t, pos, eov, bc =>
    if pos < eov ∧ 0 < bc then
      advanceAux t (pos + 1) eov
        (if c = '{' then bc + 1 else if c = '}' then bc - 1 else bc)
    else pos

/-- Git sub-object parsing for one version (registry.cpp:266-274): the
`git` key must occur before the next `}` after the version object start. -/
def parseGit (content : Str) (versionObjStart : Nat) : GitMetadata :=
  match findSubFrom content (strL "\"git\"") versionObjStart with
  | none => ⟨[], []⟩
  | some gitPos =>
    if optLt (some gitPos) (findCharFrom content '}' versionObjStart) then
      match findCharFrom content '{' gitPos with
      | none => ⟨[], []⟩
      | some gitObjStart =>
        ⟨extractValue content (strL "url") gitObjStart,
         extractValue content (strL "ref") gitObjStart⟩
    else ⟨[], []⟩

/-- The per-version loop of `Registry::fetchModuleMetadata`
(registry.cpp:247-286), fuelled.  Every field of a version is obtained by
`extractValue` starting at that version's opening brace — the search is not
bounded by the end of the version object. -/
def parseVersionsAux (content : Str) (eov : Nat) :
    Nat → List (Str × VersionMetadata) → Nat → List (Str × VersionMetadata)
  | _, acc, 0 => acc
  | pos, acc, fuel + 1 =>
    if pos < eov then
      match findCharFrom content '"' pos with
      | none => acc
      | some versionKeyStart =>
        if eov ≤ versionKeyStart then acc
        else
          match findCharFrom content '"' (versionKeyStart + 1) with
          | none => acc
          | some versionKeyEnd =>
            let versionNum := substr content (versionKeyStart + 1)
              (versionKeyEnd - versionKeyStart - 1)
            match findCharFrom content '{' versionKeyEnd with
            | none => acc
            | some versionObjStart =>
              let meta : VersionMetadata :=
                ⟨extractValue content (strL "description") versionObjStart,
                 extractValue content (strL "entry-linux") versionObjStart,
                 extractValue content (strL "entry-win") versionObjStart,
                 extractValue content (strL "entry-mac") versionObjStart,
                 parseGit content versionObjStart⟩
              parseVersionsAux content eov
                (advanceAux (content.drop (versionObjStart + 1))
                  (versionObjStart + 1) eov 1)
                (assocSet acc versionNum meta) fuel
    else acc

/-- Manifest parsing of `Registry::fetchModuleMetadata` after a successful
download (registry.cpp:198-291); an empty body yields name-only metadata
as in the early return at registry.cpp:193-196. -/
def parseManifest (content : Str) (moduleName : Str) : ModuleMetadata :=
  if content.isEmpty then emptyMetadata moduleName
  else
    { name := moduleName
      description := extractValue content (strL "description") 0
      author := extractValue content (strL "author") 0
      license := extractValue content (strL "license") 0
      repository := extractValue content (strL "repository") 0
      latest := extractValue content (strL "latest") 0
      versions :=
        match findSubFrom content (strL "\"versions\"") 0 with
        | none => []
        | some versionsPos =>
          match findCharFrom content '{' versionsPos with
          | none => []
          | some versionObjStart =>
            parseVersionsAux content (endOfVersionsOf content versionObjStart)
              (versionObjStart + 1) [] (content.length + 1) }

/-- `Registry::fetchModuleMetadata` over an abstract `download` function:
`name` is always set to the requested module name; when the module is not
in the index (`getModuleURL` empty) or the download body is empty, every
other field stays empty. -/
def fetchModuleMetadata (idx : List (Str × Str)) (download : Str → Str)
    (moduleName : Str) : ModuleMetadata :=
  let moduleURL := getModuleURL idx moduleName
  if moduleURL.isEmpty then emptyMetadata moduleName
  else parseManifest (download moduleURL) moduleName

/-! ## Project-manifest (`.quark`) update (installer.cpp:244-340) -/

/-- The `[dependencies]` header text. -/
def hdrT : Str := strL "[dependencies]"

/-- The dependency entry written by the installer: `name=version`. -/
def depEntryOf (name ver : Str) : Str := name ++ '=' :: ver

/-- Whether a (raw) line is replaced inside the `[dependencies]` section:
its trimmed form starts with `name=`. -/
def matchLine (name l : Str) : Bool := isPre (name ++ ['=']) (trimChars l)

/-- The replacement applied to an in-section line. -/
def qRepl (name ver l : Str) : Str :=
  if matchLine name l then depEntryOf name ver else l

/-- The line-reading loop of the `.quark` update (installer.cpp:257-287):
track whether we are inside `[dependencies]` (exact trimmed match enters,
any other trimmed `[`-initial line leaves), replacing in-section lines that
start with `name=` by `name=version`; also report whether any replacement
happened (`depFound`). -/
def processLoop (name ver : Str) : Bool → List Str → List Str × Bool
  | _, [] => ([], false)
  | inDep, l :: ls =>
    if trimChars l = hdrT then
      let r := processLoop name ver true ls
      (l :: r.1, r.2)
    else
      let inDep' := if (trimChars l).head? = some '[' then false else inDep
      if inDep' && isPre (name ++ ['=']) (trimChars l) then
        let r := processLoop name ver inDep' ls
        (depEntryOf name ver :: r.1, true)
      else
        let r := processLoop name ver inDep' ls
        (l :: r.1, r.2)

/-- `hasDepSection` check (installer.cpp:292-298): some line contains the
substring `[dependencies]` anywhere. -/
def hasDepSection (ls : List Str) : Bool := ls.any (containsSub hdrT)

/-- Insert-position scan after the first `[dependencies]`-containing line
(installer.cpp:306-327): insert `name=version` before the first later line
whose first raw character is `[` (lines containing the substring are
skipped), or append at the end. -/
def phaseB (name ver : Str) : List Str → List Str
  | [] => [depEntryOf name ver]
  | l :: ls =>
    if containsSub hdrT l then l :: phaseB name ver ls
    else if l.head? = some '[' then depEntryOf name ver :: l :: ls
    else l :: phaseB name ver ls

/-- Scan to the first line containing the `[dependencies]` substring, then
continue with `phaseB`. -/
def phaseA (name ver : Str) : List Str → List Str
  | [] => [depEntryOf name ver]
  | l :: ls =>
    if containsSub hdrT l then l :: phaseB name ver ls
    else l :: phaseA name ver ls

/-- The not-found branch (installer.cpp:290-332): if no line contains
`[dependencies]`, append a blank line, the header and the entry; otherwise
run the insert-position scan. -/
def insertIntoLines (name ver : Str) (ls : List Str) : List Str :=
  if hasDepSection ls then phaseA name ver ls
  else ls ++ [[], hdrT, depEntryOf name ver]

/-- Complete line-list transformation of the `.quark` update. -/
def processQuarkLines (name ver : Str) (ls : List Str) : List Str :=
  let r := processLoop name ver false ls
  if r.2 then r.1 else insertIntoLines name ver r.1

/-- The `.quark` update as a file-content transformation: read lines with
`getline`, process, write every line back followed by `"\n"`
(installer.cpp:334-339). -/
def updateQuark (name ver content : Str) : Str :=
  joinNl (processQuarkLines name ver (linesOf content))

/-! ## Installer (installer.cpp:56-344) -/

/-- Errors reported by `Installer::install`, in the order the code can
reach them. -/
inductive InstallError where
  | fetchIndexFailed
  | moduleNotFound
  | versionNotFound
  | noBinaryOrGit
  | downloadFailed
  | tmpAllocFailed
  | cloneFailed
  | checkoutFailed
  | buildFailed
deriving DecidableEq, Repr

/-- Outcome of an install: the C++ `bool` with its failure reason. -/
inductive InstallResult where
  | success
  | failure (e : InstallError)
deriving DecidableEq, Repr

/-- The five fields both metadata writers emit, in source order
(installer.cpp:231-237 and builder.cpp:387-393 write the same JSON layout,
differing only in the description text). -/
structure MetadataDoc where
  name : Str
  version : Str
  description : Str
  platform : Str
  library : Str
deriving DecidableEq, Repr

/-- The fixed description template used by `Builder::createMetadata`. -/
def builderDescOf (n : Str) : Str := n ++ strL " native module for Neutron"

/-- The `metadata.json` document written by `Builder::createMetadata`. -/
def builderDoc (n v : Str) (os : OS) : MetadataDoc :=
  ⟨n, v, builderDescOf n, osString os, n ++ libExt os⟩

/-- The `metadata.json` document written by `Installer::install`
(description comes from the resolved `VersionMetadata`). -/
def installerDoc (n v d : Str) (os : OS) : MetadataDoc :=
  ⟨n, v, d, osString os, n ++ libExt os⟩

/-- Filesystem effects issued by one `install` call, in program order. -/
inductive FSEvent where
  | mkdirE (p : Str)
  | writeBinE (p : Str) (data : Str)
  | chmodE (p : Str)
  | mkTmpE (n : Nat)
  | rmTmpE (n : Nat)
  | writeLibE (p : Str)
  | writeMetaE (p : Str) (doc : MetadataDoc)
  | writeQuarkE (content : Str)
deriving DecidableEq, Repr

/-- The world one `install` call runs against: host OS, home directory,
network (`download` returns the body or `""`), the set of already existing
`.tmpN` indices under the module directory, the outcomes of the `git
clone`, `git checkout` and build subprocesses, and the `.quark` file.
Directory creation and file writes are modelled as succeeding; the
subprocess outcomes are the oracles the code branches on. -/
structure World where
  os : OS
  homeDir : Str
  download : Str → Str
  tmps : List Nat
  cloneOk : Bool
  checkoutOk : Bool
  buildOk : Bool
  quarkExists : Bool
  quark : Str

/-- URL of the index document fetched by `Registry::fetchIndex`. -/
def indexURL : Str := registryURL ++ strL "/nur.json"

/-- Whether `registry.fetchIndex()` succeeds in world `w`. -/
def fetchIndexOkM (w : World) : Bool := parseIndexOk (w.download indexURL)

/-- The module index populated by a successful `fetchIndex`. -/
def parsedIndex (w : World) : List (Str × Str) :=
  parseIndexPairs (w.download indexURL)

/-- Module-name part of an install spec: the text before the first `@`
(installer.cpp:60-64). -/
def specName (spec : Str) : Str :=
  match findCharFrom spec '@' 0 with
  | none => spec
  | some i => spec.take i

/-- Requested-version part of an install spec: the text after the first
`@`, empty when absent. -/
def specVer (spec : Str) : Str :=
  match findCharFrom spec '@' 0 with
  | none => []
  | some i => spec.drop (i + 1)

/-- The version chosen for install: the request, or `metadata.latest` when
no version was requested (installer.cpp:81). -/
def resolvedVer (md : ModuleMetadata) (reqVer : Str) : Str :=
  if reqVer.isEmpty then md.latest else reqVer

/-- Allocation of the unique temporary directory index
(installer.cpp:142-161): the first `attempt < 10` whose `.tmp<attempt>`
does not exist, `none` when ten attempts fail. -/
def firstFreeTmp (tmps : List Nat) : Nat → Nat → Option Nat
  | _, 0 => none
  | attempt, fuel + 1 =>
    if tmps.contains attempt then firstFreeTmp tmps (attempt + 1) fuel
    else some attempt

/-- Per-platform binary entry URL selection (installer.cpp:106-113); the
`Unknown` platform matches none of the three predicates and leaves the URL
empty. -/
def entryFor (os : OS) (vm : VersionMetadata) : Str :=
  match os with
  | .linux => vm.entryLinux
  | .windows => vm.entryWin
  | .macos => vm.entryMac
  | .unknown => []

/-- Store root for the chosen scope (installer.cpp:23-44). -/
def installRoot (w : World) (global : Bool) : Str :=
  if global then w.homeDir ++ strL "/.box/modules" else strL "./.box/modules"

/-- `Installer::install` (installer.cpp:56-344) as a pure function from the
world to a result and the ordered list of filesystem effects.  The step
order mirrors the source: spec split, index fetch, metadata fetch and
`name.empty()` check, version lookup, module-directory creation, then
either the binary-download branch or the git-clone/build branch (with its
temporary-directory lifecycle), then the installer's `metadata.json`
write, then the `.quark` update for local installs. -/
def install (spec : Str) (global : Bool) (w : World) :
    InstallResult × List FSEvent :=
  let name := specName spec
  let reqVer := specVer spec
  if fetchIndexOkM w then
    let md := fetchModuleMetadata (parsedIndex w) w.download name
    if md.name.isEmpty then (.failure .moduleNotFound, [])
    else
      let ver := resolvedVer md reqVer
      match lookupVer md.versions ver with
      | none => (.failure .versionNotFound, [])
      | some vm =>
        let dir := installRoot w global ++ '/' :: name
        let metaPath := dir ++ strL "/metadata.json"
        let finish := fun (ev : List FSEvent) =>
          let ev1 := ev ++ [FSEvent.writeMetaE metaPath
            (installerDoc name ver vm.description w.os)]
          if ¬global ∧ w.quarkExists then
            (InstallResult.success,
             ev1 ++ [FSEvent.writeQuarkE (updateQuark name ver w.quark)])
          else (InstallResult.success, ev1)
        let ev0 := [FSEvent.mkdirE dir]
        if vm.git.url.isEmpty then
          let binURL := entryFor w.os vm
          if binURL.isEmpty then (.failure .noBinaryOrGit, ev0)
          else
            let data := w.download binURL
            if data.isEmpty then (.failure .downloadFailed, ev0)
            else
              let outFile := dir ++ '/' :: name ++ libExt w.os
              finish (ev0 ++ [FSEvent.writeBinE outFile data] ++
                (if w.os = OS.windows then [] else [FSEvent.chmodE outFile]))
        else
          match firstFreeTmp w.tmps 0 10 with
          | none => (.failure .tmpAllocFailed, ev0)
          | some n =>
            let ev1 := ev0 ++ [FSEvent.mkTmpE n]
            if ¬w.cloneOk then (.failure .cloneFailed, ev1 ++ [FSEvent.rmTmpE n])
            else if ¬vm.git.ref.isEmpty ∧ ¬w.checkoutOk then
              (.failure .checkoutFailed, ev1 ++ [FSEvent.rmTmpE n])
            else
              let evB :=
                if w.buildOk then
                  [FSEvent.writeLibE (dir ++ '/' :: name ++ libExt w.os),
                   FSEvent.writeMetaE metaPath (builderDoc name ver w.os)]
                else []
              let ev2 := ev1 ++ evB ++ [FSEvent.rmTmpE n]
              if w.buildOk then finish ev2 else (.failure .buildFailed, ev2)
  else (.failure .fetchIndexFailed, [])

/-- Exit code of `box install <spec>` (main.cpp:158-162). -/
def installExit (spec : Str) (global : Bool) (w : World) : Nat :=
  match (install spec global w).1 with
  | .success => 0
  | .failure _ => 1

/-- The set of existing `.tmpN` indices after replaying the install's
filesystem effects (`mkTmpE` creates, `rmTmpE` is the recursive removal). -/
def applyTmps (tmps : List Nat) : List FSEvent → List Nat
  | [] => tmps
  | FSEvent.mkTmpE n :: es => applyTmps (n :: tmps) es
  | FSEvent.rmTmpE n :: es => applyTmps (tmps.filter (fun m => m ≠ n)) es
  | _ :: es => applyTmps tmps es

/-- The `metadata.json` writes contained in an effect list, in order,
paired with their target path. -/
def metaWrites : List FSEvent → List (Str × MetadataDoc)
  | [] => []
  | FSEvent.writeMetaE p d :: es => (p, d) :: metaWrites es
  | _ :: es => metaWrites es

/-! ## Concrete example inputs used by counterexamples and witnesses -/

/-- A registry index document with one module, `foo`, whose manifest URL is
relative. -/
def exampleIndexJson : Str :=
  strL "\x7b\"version\":\"1.0\",\"modules\":\x7b\"foo\":\"./modules/foo.json\"\x7d\x7d"

/-- A manifest for `foo` with one version whose install path is a git
source build. -/
def exampleManifestJson : Str :=
  strL "\x7b\"name\":\"foo\",\"latest\":\"1.0.0\",\"versions\":\x7b\"1.0.0\":\x7b\"description\":\"d\",\"git\":\x7b\"url\":\"https://g/r\",\"ref\":\"v1\"\x7d\x7d\x7d\x7d"

/-- A manifest for `foo` with one version carrying only a Linux binary
entry (no git repository). -/
def exampleBinaryManifestJson : Str :=
  strL "\x7b\"name\":\"foo\",\"latest\":\"1.0.0\",\"versions\":\x7b\"1.0.0\":\x7b\"description\":\"d\",\"entry-linux\":\"https://a/foo.so\"\x7d\x7d\x7d"

/-- A network returning the example index and the git-build manifest. -/
def exampleDownload : Str → Str := fun u =>
  if u = indexURL then exampleIndexJson
  else if u = registryURL ++ strL "/modules/foo.json" then exampleManifestJson
  else if u = strL "https://a/foo.so" then strL "bits"
  else []

/-- A network returning the example index and the binary-only manifest. -/
def exampleBinaryDownload : Str → Str := fun u =>
  if u = indexURL then exampleIndexJson
  else if u = registryURL ++ strL "/modules/foo.json" then exampleBinaryManifestJson
  else if u = strL "https://a/foo.so" then strL "bits"
  else []

/-- Linux world where `.tmp0` already exists and `git clone` fails. -/
def exampleWorldCloneFail : World :=
  ⟨OS.linux, strL "/home/u", exampleDownload, [0], false, true, true, false, []⟩

/-- Linux world where the clone, checkout and build all succeed. -/
def exampleWorldBuildOk : World :=
  ⟨OS.linux, strL "/home/u", exampleDownload, [], true, true, true, false, []⟩

/-- Linux world for the binary-download path. -/
def exampleWorldBinary : World :=
  ⟨OS.linux, strL "/home/u", exampleBinaryDownload, [], true, true, true, false, []⟩

/-- A manifest whose version `1.0.0` omits `description` while the later
version `1.0.1` carries one: the lenient field extraction reads the next
occurrence of the key anywhere after the version object start. -/
def exampleLeakManifest : Str :=
  strL "\x7b\"name\":\"m\",\"latest\":\"1.0.0\",\"versions\":\x7b\"1.0.0\":\x7b\"entry-linux\":\"https://a/m.so\"\x7d,\"1.0.1\":\x7b\"description\":\"second\",\"entry-linux\":\"https://b/m.so\"\x7d\x7d\x7d"

/-- A `.quark` file without a final newline whose last line sits outside
the `[dependencies]` section. -/
def exampleQuarkNoNl : Str := strL "[dependencies]\nfoo=1.0\n[other]\nk=v"

/-- A `.quark` file consisting of one comment line that merely mentions
`[dependencies]`. -/
def exampleQuarkComment : Str := strL "# see [dependencies] docs\n"

/-! ## Supporting lemmas -/

set_option maxRecDepth 40000

theorem isEmpty_eq_false_of_ne_nil {l : Str} (h : l ≠ []) : l.isEmpty = false := by
  cases l with
  | nil => exact absurd rfl h
  | cons c t => rfl

theorem fetchModuleMetadata_name (idx : List (Str × Str)) (dl : Str → Str)
    (n : Str) : (fetchModuleMetadata idx dl n).name = n := by
  simp only [fetchModuleMetadata, parseManifest, emptyMetadata]
  split
  · rfl
  · split <;> rfl

theorem fetchModuleMetadata_unknown (idx : List (Str × Str)) (dl : Str → Str)
    (n : Str) (h : idxLookup idx n = none) :
    fetchModuleMetadata idx dl n = emptyMetadata n := by
  unfold fetchModuleMetadata getModuleURL
  rw [h]
  rfl

/-! ## C2: compiler selection -/

/-- C2, counterexample.  The claim says that on Windows with `MSYSTEM`
indicating an MSYS2/MINGW environment the Builder selects `g++`; but
`Builder::getCompiler` never consults `MSYSTEM` and returns `cl` in that
environment. -/
theorem C2_counterexample :
    getCompiler OS.windows ⟨some (strL "MINGW64"), false⟩ = strL "cl" ∧
    getCompiler OS.windows ⟨some (strL "MINGW64"), false⟩ ≠ strL "g++" := by
  exact ⟨rfl, by decide⟩

/-- C2, amended.  `Builder::getCompiler` returns `cl` on Windows for every
environment (MSYSTEM is ignored), and on Linux/macOS returns `clang++`
when it is on `PATH` and `g++` otherwise. -/
theorem C2_compiler_selection (env : BuildEnv) :
    getCompiler OS.windows env = strL "cl" ∧
    getCompiler OS.linux env =
      (if env.clangOnPath then strL "clang++" else strL "g++") ∧
    getCompiler OS.macos env =
      (if env.clangOnPath then strL "clang++" else strL "g++") := by
  refine ⟨rfl, ?_, ?_⟩ <;> simp [getCompiler]

/-! ## C3: source-file discovery in buildFromSource -/

/-- C3, counterexample.  A repository containing only `src/native.cpp`
(one of the four fallback candidates named by the claim) makes
`Builder::buildFromSource` fail: its existence check does not include
`src/native.cpp`. -/
theorem C3_counterexample :
    buildFromSourceCheck [strL "/s/src/native.cpp"] (strL "/s") = none ∧
    fileExists [strL "/s/src/native.cpp"] (strL "/s" ++ strL "/src/native.cpp") = true ∧
    buildFromSourceResult [strL "/s/src/native.cpp"] (strL "/s") true true = false := by
  refine ⟨rfl, rfl, rfl⟩

/-- C3, amended.  `buildFromSource` fails exactly when `native.cpp`,
`src/main.cpp`, `source/native.cpp` and `lib/native.cpp` are all absent —
`src/native.cpp` is not consulted by the failure check — while the source
actually compiled, chosen inside `generateBuildCommand`, does prefer
`src/native.cpp` when `native.cpp` is absent. -/
theorem C3_source_discovery (fs : List Str) (sp : Str) :
    (buildFromSourceCheck fs sp = none ↔
      fileExists fs (sp ++ strL "/native.cpp") = false ∧
      fileExists fs (sp ++ strL "/src/main.cpp") = false ∧
      fileExists fs (sp ++ strL "/source/native.cpp") = false ∧
      fileExists fs (sp ++ strL "/lib/native.cpp") = false) ∧
    (buildFromSourceCheck fs sp = none →
      ∀ shim exec : Bool, buildFromSourceResult fs sp shim exec = false) ∧
    (fileExists fs (sp ++ strL "/native.cpp") = false →
      fileExists fs (sp ++ strL "/src/native.cpp") = true →
      generateBuildCommandSource fs sp = sp ++ strL "/src/native.cpp") := by
  refine ⟨?_, ?_, ?_⟩
  · unfold buildFromSourceCheck
    cases h1 : fileExists fs (sp ++ strL "/native.cpp") <;>
      cases h2 : fileExists fs (sp ++ strL "/src/main.cpp") <;>
      cases h3 : fileExists fs (sp ++ strL "/source/native.cpp") <;>
      cases h4 : fileExists fs (sp ++ strL "/lib/native.cpp") <;>
      simp [List.find?, h1, h2, h3, h4]
  · intro h shim exec
    unfold buildFromSourceResult
    rw [h]
  · intro h1 h2
    unfold generateBuildCommandSource
    simp [List.find?, h1, h2]

/-- C3, witness for the amended theorem at a filesystem containing only
`src/native.cpp` and `src/main.cpp`. -/
theorem C3_witness :
    generateBuildCommandSource
      [strL "/s/src/native.cpp", strL "/s/src/main.cpp"] (strL "/s") =
      strL "/s" ++ strL "/src/native.cpp" := by
  exact (C3_source_discovery
    [strL "/s/src/native.cpp", strL "/s/src/main.cpp"] (strL "/s")).2.2
    (by decide) (by decide)

/-! ## C4: missing fields in version objects -/

/-- C4, counterexample.  In `exampleLeakManifest` version `1.0.0` omits
`description`, yet its parsed description is `"second"` — the text of the
following version's `description`, because `extractValue` searches forward
over the whole remaining document. -/
theorem C4_counterexample :
    (lookupVer (parseManifest exampleLeakManifest (strL "m")).versions
        (strL "1.0.0")).map (fun vm => vm.description) = some (strL "second") ∧
    strL "second" ≠ ([] : Str) := by
  exact ⟨by decide, by decide⟩

/-- C4, amended.  A version field whose key does not occur at or after the
version object's start parses as the empty string, but when the key occurs
later in the document the value is taken from there — so a field missing
from one version object can be filled from a later version's text, as the
`exampleLeakManifest` evaluation shows (`1.0.0` has no `description` of
its own yet parses with `"second"`, while the genuinely absent `entry-win`
is empty for both versions). -/
theorem C4_missing_field_extraction :
    (∀ (content key : Str) (startPos : Nat),
      findSubFrom content ('"' :: key ++ ['"']) startPos = none →
      extractValue content key startPos = []) ∧
    (parseManifest exampleLeakManifest (strL "m")).versions.map
        (fun p => (p.1, p.2.description, p.2.entryWin)) =
      [(strL "1.0.0", strL "second", []), (strL "1.0.1", strL "second", [])] := by
  constructor
  · intro content key startPos h
    unfold extractValue
    rw [h]
  · decide

/-- C4, witness for the amended theorem: a key absent from the rest of the
document extracts as empty. -/
theorem C4_witness :
    extractValue (strL "\x7b\"a\":\"1\"\x7d") (strL "entry-win") 0 = [] := by
  exact C4_missing_field_extraction.1 (strL "\x7b\"a\":\"1\"\x7d")
    (strL "entry-win") 0 (by decide)

/-! ## C1: install of an unknown module -/

/-- C1, counterexample.  With the example index (which knows only `foo`),
installing the unknown module `bar` does fail, but not the way the claim
says: the resolve step does not stop before the version lookup with
"Module not found" — `fetchModuleMetadata` always sets `name`, so the
installer's module-not-found branch is not taken and the failure is the
version lookup's "Version not found". -/
theorem C1_counterexample :
    install (strL "bar") false exampleWorldBuildOk =
      (InstallResult.failure InstallError.versionNotFound, []) ∧
    InstallError.versionNotFound ≠ InstallError.moduleNotFound := by
  exact ⟨by decide, by decide⟩

/-- C1, amended.  For a fetched index not containing the (nonempty) module
name, install fails with no filesystem effect, but the failure surfaces at
the version lookup ("Version not found"): the installer's own "Module not
found" branch is unreachable because `fetchModuleMetadata` always sets
`name` (the registry only prints a "Module not found in registry"
diagnostic). -/
theorem C1_unknown_module_fails_at_version_lookup (w : World) (spec : Str)
    (global : Bool)
    (hIdx : fetchIndexOkM w = true)
    (hUnknown : idxLookup (parsedIndex w) (specName spec) = none)
    (hNe : specName spec ≠ []) :
    install spec global w = (.failure .versionNotFound, []) ∧
    (install spec global w).1 ≠ .failure .moduleNotFound := by
  have hmd := fetchModuleMetadata_unknown (parsedIndex w) w.download (specName spec) hUnknown
  have h1 : install spec global w = (.failure .versionNotFound, []) := by
    simp [install, hIdx, hmd, emptyMetadata, isEmpty_eq_false_of_ne_nil hNe,
      lookupVer, resolvedVer]
  exact ⟨h1, by rw [h1]; decide⟩

/-- C1, witness for the amended theorem: the unknown module `bar` against
the example world. -/
theorem C1_witness :
    install (strL "bar") true exampleWorldBuildOk =
      (.failure .versionNotFound, []) ∧
    (install (strL "bar") true exampleWorldBuildOk).1 ≠ .failure .moduleNotFound := by
  exact C1_unknown_module_fails_at_version_lookup exampleWorldBuildOk
    (strL "bar") true (by decide) (by decide) (by decide)

/-! ## C5: temporary-directory hygiene on the source-build path -/

/-- C5, counterexample.  When `.tmp0` already exists under the module
directory (for instance left behind by an interrupted run), a source-build
install allocates `.tmp1`, removes only `.tmp1`, and returns with `.tmp0`
still present — so a path matching `<store>/<name>/.tmp*` does exist after
the install returns. -/
theorem C5_counterexample :
    (install (strL "foo") false exampleWorldCloneFail).1 =
      InstallResult.failure InstallError.cloneFailed ∧
    applyTmps exampleWorldCloneFail.tmps
      (install (strL "foo") false exampleWorldCloneFail).2 = [0] := by
  exact ⟨by decide, by decide⟩

/-- C5, amended.  On the source-build path the `.tmpN` directory this
install allocates is always removed before returning — whether the clone,
checkout or build succeeded or failed — though pre-existing `.tmp*`
entries are left in place. -/
theorem C5_allocated_tmp_removed (w : World) (spec : Str) (global : Bool)
    (n : Nat) (vm : VersionMetadata)
    (hIdx : fetchIndexOkM w = true)
    (hNe : specName spec ≠ [])
    (hVm : lookupVer
        (fetchModuleMetadata (parsedIndex w) w.download (specName spec)).versions
        (resolvedVer (fetchModuleMetadata (parsedIndex w) w.download (specName spec))
          (specVer spec)) = some vm)
    (hGit : vm.git.url ≠ [])
    (hAlloc : firstFreeTmp w.tmps 0 10 = some n) :
    n ∉ applyTmps w.tmps (install spec global w).2 := by
  have hname := fetchModuleMetadata_name (parsedIndex w) w.download (specName spec)
  obtain ⟨os, hd, dl, tmps, co, ck, bo, qe, qk⟩ := w
  simp only [install, hIdx, if_true, hname, isEmpty_eq_false_of_ne_nil hNe, hVm,
    isEmpty_eq_false_of_ne_nil hGit, hAlloc] at *
  cases co <;> cases bo <;>
    simp only [Bool.not_true, Bool.not_false, if_true, if_false, ite_true, ite_false,
      Bool.false_eq_true, not_false_iff]
  all_goals try split_ifs
  all_goals simp [applyTmps, List.mem_filter]

/-- C5, witness for the amended theorem: a fully successful source build in
the example world allocates `.tmp0` and leaves no trace of it. -/
theorem C5_witness :
    0 ∉ applyTmps exampleWorldBuildOk.tmps
      (install (strL "foo") false exampleWorldBuildOk).2 := by
  exact C5_allocated_tmp_removed exampleWorldBuildOk (strL "foo") false 0
    ⟨strL "d", [], [], [], ⟨strL "https://g/r", strL "v1"⟩⟩
    (by decide) (by decide) (by decide) (by decide) (by decide)

/-! ## C6: install of an unknown version -/

/-- C6, confirmed.  When the chosen version is not a key of the module's
versions map, install fails with "Version not found" (exit code 1) and
issues no filesystem effect at all: the version check precedes the
creation of `<store>/<name>/` and every write. -/
theorem C6_version_not_found_no_fs_change (w : World) (spec : Str) (global : Bool)
    (hIdx : fetchIndexOkM w = true)
    (hNe : specName spec ≠ [])
    (hVer : lookupVer
        (fetchModuleMetadata (parsedIndex w) w.download (specName spec)).versions
        (resolvedVer (fetchModuleMetadata (parsedIndex w) w.download (specName spec))
          (specVer spec)) = none) :
    install spec global w = (.failure .versionNotFound, []) ∧
    installExit spec global w = 1 := by
  have hname := fetchModuleMetadata_name (parsedIndex w) w.download (specName spec)
  have h1 : install spec global w = (.failure .versionNotFound, []) := by
    simp [install, hIdx, hname, isEmpty_eq_false_of_ne_nil hNe, hVer]
  exact ⟨h1, by simp [installExit, h1]⟩

/-- C6, witness: requesting the absent version `9.9.9` of `foo` in the
example world. -/
theorem C6_witness :
    install (strL "foo@9.9.9") false exampleWorldBuildOk =
      (.failure .versionNotFound, []) ∧
    installExit (strL "foo@9.9.9") false exampleWorldBuildOk = 1 := by
  exact C6_version_not_found_no_fs_change exampleWorldBuildOk
    (strL "foo@9.9.9") false (by decide) (by decide) (by decide)

/-! ## C10: the final metadata.json of a source-build install -/

/-- C10, confirmed.  On a successful source-build install the effect trace
contains exactly two `metadata.json` writes to the same path, in order:
first the Builder's (description fixed to `<name> native module for
Neutron`), then the Installer's rewrite carrying the registry's resolved
per-version description; the two documents agree on the name, version,
platform and library fields by construction of `builderDoc` and
`installerDoc`. -/
theorem C10_installer_metadata_overwrites_builder (w : World) (spec : Str)
    (global : Bool) (n : Nat) (vm : VersionMetadata)
    (hIdx : fetchIndexOkM w = true)
    (hNe : specName spec ≠ [])
    (hVm : lookupVer
        (fetchModuleMetadata (parsedIndex w) w.download (specName spec)).versions
        (resolvedVer (fetchModuleMetadata (parsedIndex w) w.download (specName spec))
          (specVer spec)) = some vm)
    (hGit : vm.git.url ≠ [])
    (hAlloc : firstFreeTmp w.tmps 0 10 = some n)
    (hClone : w.cloneOk = true)
    (hCo : vm.git.ref = [] ∨ w.checkoutOk = true)
    (hBuild : w.buildOk = true) :
    (install spec global w).1 = InstallResult.success ∧
    metaWrites (install spec global w).2 =
      [(installRoot w global ++ '/' :: specName spec ++ strL "/metadata.json",
        builderDoc (specName spec)
          (resolvedVer (fetchModuleMetadata (parsedIndex w) w.download (specName spec))
            (specVer spec)) w.os),
       (installRoot w global ++ '/' :: specName spec ++ strL "/metadata.json",
        installerDoc (specName spec)
          (resolvedVer (fetchModuleMetadata (parsedIndex w) w.download (specName spec))
            (specVer spec)) vm.description w.os)] := by
  have hname := fetchModuleMetadata_name (parsedIndex w) w.download (specName spec)
  have hco : (¬vm.git.ref.isEmpty = true ∧ ¬w.checkoutOk = true) = False := by
    rcases hCo with h | h <;> simp [h]
  simp only [install, hIdx, if_true, hname, isEmpty_eq_false_of_ne_nil hNe, hVm,
    isEmpty_eq_false_of_ne_nil hGit, hAlloc, hClone, hBuild, hco,
    Bool.not_true, if_false, ite_true, ite_false, not_false_iff]
  refine ⟨?_, ?_⟩ <;> split_ifs <;> simp_all [metaWrites]

/-- C10, witness: the successful source build of `foo@1.0.0` in the example
world ends with the installer's metadata document (description `"d"` from
the registry) written after the builder's. -/
theorem C10_witness :
    (install (strL "foo") false exampleWorldBuildOk).1 = InstallResult.success ∧
    metaWrites (install (strL "foo") false exampleWorldBuildOk).2 =
      [(installRoot exampleWorldBuildOk false ++ '/' :: specName (strL "foo") ++
          strL "/metadata.json",
        builderDoc (specName (strL "foo"))
          (resolvedVer (fetchModuleMetadata (parsedIndex exampleWorldBuildOk)
            exampleWorldBuildOk.download (specName (strL "foo")))
            (specVer (strL "foo"))) exampleWorldBuildOk.os),
       (installRoot exampleWorldBuildOk false ++ '/' :: specName (strL "foo") ++
          strL "/metadata.json",
        installerDoc (specName (strL "foo"))
          (resolvedVer (fetchModuleMetadata (parsedIndex exampleWorldBuildOk)
            exampleWorldBuildOk.download (specName (strL "foo")))
            (specVer (strL "foo"))) (strL "d") exampleWorldBuildOk.os)] := by
  exact C10_installer_metadata_overwrites_builder exampleWorldBuildOk
    (strL "foo") false 0 ⟨strL "d", [], [], [], ⟨strL "https://g/r", strL "v1"⟩⟩
    (by decide) (by decide) (by decide) (by decide) (by decide) (by decide)
    (Or.inr (by decide)) (by decide)

/-! ## C9: relative-URL resolution in the index -/

theorem parseIndexPairsAux_map (convert : Str → Str) (content : Str) :
    ∀ (fuel : Nat) (pos : Nat), parseIndexPairsAux convert content pos fuel =
      (parseIndexPairsAux (fun u => u) content pos fuel).map
        (fun pr => (pr.1, convert pr.2)) := by
  intro fuel
  induction fuel with
  | zero => intro pos; rfl
  | succ f ih =>
    intro pos
    simp only [parseIndexPairsAux]
    cases h1 : findCharFrom content '"' pos with
    | none => simp
    | some nameStart =>
      cases h2 : findCharFrom content '"' (nameStart + 1) with
      | none => simp [h2]
      | some nameEnd =>
        cases h3 : findCharFrom content '"' (nameEnd + 1) with
        | none => simp [h2, h3]
        | some urlStart =>
          cases h4 : findCharFrom content '"' (urlStart + 1) with
          | none => simp [h2, h3, h4]
          | some urlEnd =>
            by_cases hc : optLt (findCharFrom content '}' (urlEnd + 1))
                (findCharFrom content '"' (urlEnd + 1)) = true
            · simp [h2, h3, h4, hc]
            · simp [h2, h3, h4, hc, ih]

theorem parseIndexPairs_eq_map (content : Str) :
    parseIndexPairs content =
      (rawIndexPairs content).map (fun pr => (pr.1, resolveURL registryURL pr.2)) := by
  unfold parseIndexPairs rawIndexPairs
  cases h1 : findSubFrom content (strL "\"modules\"") 0 with
  | none => rfl
  | some mp =>
    cases h2 : findCharFrom content '{' mp with
    | none => simp [h2]
    | some ob =>
      simp only [h2]
      exact parseIndexPairsAux_map (resolveURL registryURL) content _ _

theorem registryURL_append_head (t : Str) : (registryURL ++ t).head? = some 'h' := rfl

theorem resolveURL_idem (u : Str) :
    resolveURL registryURL (resolveURL registryURL u) = resolveURL registryURL u := by
  by_cases h : u.head? = some '.'
  · simp only [resolveURL, h, if_true]
    rw [if_neg]
    rw [registryURL_append_head]
    intro hcontra
    cases hcontra
  · simp [resolveURL, h]

theorem getModuleURL_eq_lookup (content : Str) (name : Str) :
    getModuleURL (parseIndexPairs content) name =
      (idxLookup (parseIndexPairs content) name).getD [] := by
  have hv : ∀ pr ∈ parseIndexPairs content,
      resolveURL registryURL pr.2 = pr.2 := by
    rw [parseIndexPairs_eq_map]
    intro pr hpr
    obtain ⟨q, hq, rfl⟩ := List.mem_map.mp hpr
    exact resolveURL_idem q.2
  unfold getModuleURL
  cases h : idxLookup (parseIndexPairs content) name with
  | none => rfl
  | some p =>
    have hp : resolveURL registryURL p = p := by
      unfold idxLookup at h
      cases hf : (parseIndexPairs content).reverse.find? (fun pr => pr.1 == name) with
      | none => rw [hf] at h; cases h
      | some pr =>
        rw [hf] at h
        cases h
        exact hv pr (List.mem_reverse.mp (List.mem_of_find?_eq_some hf))
    have hfile : isPre (strL "file://") registryURL = false := by decide
    simp [hfile, hp]

/-- C9, confirmed.  Each parsed index entry stores exactly
`resolveURL registryURL` of the raw URL from the document: a URL beginning
with `.` becomes the registry base concatenated (pure string append, no
normalization) with the URL minus that dot; any other URL is stored
unchanged.  `getModuleURL` then returns the stored URL verbatim, since a
stored URL can no longer begin with a dot. -/
theorem C9_relative_url_resolution :
    (∀ content : Str, parseIndexPairs content =
      (rawIndexPairs content).map (fun pr => (pr.1, resolveURL registryURL pr.2))) ∧
    (∀ u : Str, u.head? = some '.' →
      resolveURL registryURL u = registryURL ++ u.tail) ∧
    (∀ u : Str, u.head? ≠ some '.' → resolveURL registryURL u = u) ∧
    (∀ content name : Str, getModuleURL (parseIndexPairs content) name =
      (idxLookup (parseIndexPairs content) name).getD []) := by
  refine ⟨parseIndexPairs_eq_map, ?_, ?_, getModuleURL_eq_lookup⟩
  · intro u h
    simp [resolveURL, h]
  · intro u h
    simp [resolveURL, h]

/-- C9, witness: the relative URL of the example index resolves to the base
URL plus its dotless remainder, and an absolute URL stays unchanged. -/
theorem C9_witness :
    resolveURL registryURL (strL "./modules/foo.json") =
      registryURL ++ (strL "./modules/foo.json").tail ∧
    resolveURL registryURL (strL "https://x/y.json") = strL "https://x/y.json" := by
  exact ⟨C9_relative_url_resolution.2.1 (strL "./modules/foo.json") (by decide),
    C9_relative_url_resolution.2.2.1 (strL "https://x/y.json") (by decide)⟩

/-! ## C7: frame property of the .quark update -/

/-- C7, counterexample.  `exampleQuarkNoNl` has no final newline and its
last line `k=v` lies outside the `[dependencies]` section (it belongs to
`[other]`); after the update the file ends with `k=v\n` — the byte region
outside the `[dependencies]` section is no longer a suffix of the file, so
the presence/absence of the trailing newline is not preserved. -/
theorem C7_counterexample :
    updateQuark (strL "foo") (strL "2.0") exampleQuarkNoNl =
      strL "[dependencies]\nfoo=2.0\n[other]\nk=v\n" ∧
    isSuffix (strL "[other]\nk=v") exampleQuarkNoNl = true ∧
    isSuffix (strL "[other]\nk=v")
      (updateQuark (strL "foo") (strL "2.0") exampleQuarkNoNl) = false := by
  exact ⟨by decide, by decide, by decide⟩

/-! ## C8: idempotence of the .quark update -/

/-- C8, counterexample.  A `.quark` file consisting of the single comment
`# see [dependencies] docs` (a line containing the substring
`[dependencies]` without being a section header) defeats the update's
section detection: each run appends another `foo=1.0` line, so running the
update twice does not yield the same content as running it once. -/
theorem C8_counterexample :
    updateQuark (strL "foo") (strL "1.0")
        (updateQuark (strL "foo") (strL "1.0") exampleQuarkComment) ≠
      updateQuark (strL "foo") (strL "1.0") exampleQuarkComment ∧
    updateQuark (strL "foo") (strL "1.0") exampleQuarkComment =
      strL "# see [dependencies] docs\nfoo=1.0\n" ∧
    updateQuark (strL "foo") (strL "1.0")
        (updateQuark (strL "foo") (strL "1.0") exampleQuarkComment) =
      strL "# see [dependencies] docs\nfoo=1.0\nfoo=1.0\n" := by
  exact ⟨by decide, by decide, by decide⟩

/-! ## Supporting lemmas for the .quark update (C7, C8) -/


theorem isPre_append_self : ∀ p s : Str, isPre p (p ++ s) = true := by
  intro p
  induction p with
  | nil => intro s; rfl
  | cons c t ih => intro s; simp [isPre, ih]

theorem isPre_mem : ∀ p s : Str, isPre p s = true → ∀ c ∈ p, c ∈ s := by
  intro p
  induction p with
  | nil => intro s _ c hc; cases hc
  | cons a t ih =>
    intro s h c hc
    cases s with
    | nil => cases h
    | cons b s2 =>
      simp only [isPre, Bool.and_eq_true, decide_eq_true_eq] at h
      rcases List.mem_cons.mp hc with rfl | hc2
      · rw [h.1]; exact List.mem_cons_self b s2
      · exact List.mem_cons_of_mem _ (ih s2 h.2 c hc2)

theorem containsSub_mem : ∀ s p : Str, containsSub p s = true → ∀ c ∈ p, c ∈ s := by
  intro s
  induction s with
  | nil =>
    intro p h c hc
    cases p with
    | nil => cases hc
    | cons a t => cases h
  | cons b s2 ih =>
    intro p h c hc
    simp only [containsSub, Bool.or_eq_true] at h
    rcases h with h | h
    · exact isPre_mem p (b :: s2) h c hc
    · exact List.mem_cons_of_mem _ (ih p h c hc)

theorem containsSub_eq_false_of_not_mem {p s : Str} (x : Char)
    (hx : x ∈ p) (hs : x ∉ s) : containsSub p s = false := by
  cases h : containsSub p s
  · rfl
  · exact absurd (containsSub_mem s p h x hx) hs

theorem containsSub_self_append : ∀ p b : Str, containsSub p (p ++ b) = true := by
  intro p b
  cases p with
  | nil => cases b <;> simp [containsSub, isPre]
  | cons c t =>
    simp only [List.cons_append, containsSub, Bool.or_eq_true]
    exact Or.inl (by simpa using isPre_append_self (c :: t) b)

theorem containsSub_of_decomp : ∀ a p b : Str, containsSub p (a ++ p ++ b) = true := by
  intro a
  induction a with
  | nil => intro p b; simpa using containsSub_self_append p b
  | cons c a2 ih =>
    intro p b
    simp only [List.cons_append, containsSub, Bool.or_eq_true]
    exact Or.inr (ih p b)

theorem trim_decomp (l : Str) : ∃ a b, l = a ++ trimChars l ++ b := by
  refine ⟨l.takeWhile wsChar, ((l.dropWhile wsChar).reverse.takeWhile wsChar).reverse, ?_⟩
  unfold trimChars
  conv_lhs => rw [← List.takeWhile_append_dropWhile (p := wsChar) (l := l)]
  rw [List.append_assoc]
  congr 1
  rw [← List.reverse_append, List.takeWhile_append_dropWhile, List.reverse_reverse]

theorem containsSub_of_trim_eq {l : Str} (h : trimChars l = hdrT) :
    containsSub hdrT l = true := by
  obtain ⟨a, b, hl⟩ := trim_decomp l
  rw [h] at hl
  rw [hl]
  exact containsSub_of_decomp a hdrT b

theorem trim_ne_of_not_contains {l : Str} (h : containsSub hdrT l = false) :
    trimChars l ≠ hdrT := by
  intro hc
  rw [containsSub_of_trim_eq hc] at h
  cases h

theorem reverse_dropWhile_head {x : Str} {c : Char} (hw : wsChar c = false)
    (h : x.head? = some c) : ((x.reverse.dropWhile wsChar).reverse).head? = some c := by
  have hx : (x.reverse.dropWhile wsChar).reverse ++
      (x.reverse.takeWhile wsChar).reverse = x := by
    rw [← List.reverse_append, List.takeWhile_append_dropWhile, List.reverse_reverse]
  cases hyy : (x.reverse.dropWhile wsChar).reverse with
  | nil =>
    exfalso
    have hxz : x = (x.reverse.takeWhile wsChar).reverse := by
      conv_lhs => rw [← hx]
      rw [hyy, List.nil_append]
    have hcx : c ∈ x := by
      cases x with
      | nil => cases h
      | cons a t =>
        have : a = c := by injection h
        rw [this]; exact List.mem_cons_self c t
    have hcw : wsChar c = true := by
      rw [hxz] at hcx
      exact List.mem_takeWhile_imp (List.mem_reverse.mp hcx)
    rw [hcw] at hw
    cases hw
  | cons d u =>
    have h2 : ((x.reverse.dropWhile wsChar).reverse ++
        (x.reverse.takeWhile wsChar).reverse).head? = some d := by
      rw [hyy]; rfl
    rw [hx, h] at h2
    have hcd : c = d := by injection h2
    rw [← hcd]
    rfl

theorem trim_head_of_head {l : Str} {c : Char} (hw : wsChar c = false)
    (h : l.head? = some c) : (trimChars l).head? = some c := by
  unfold trimChars
  apply reverse_dropWhile_head hw
  cases l with
  | nil => cases h
  | cons a t =>
    have : a = c := by injection h
    subst this
    simp [List.dropWhile_cons, hw]

theorem head_ne_of_trim_head {l : Str} (h : (trimChars l).head? ≠ some '[') :
    l.head? ≠ some '[' := fun hh => h (trim_head_of_head (by decide) hh)

theorem trim_of_no_ws {l : Str} (h : ∀ c ∈ l, wsChar c = false) : trimChars l = l := by
  unfold trimChars
  have h1 : l.dropWhile wsChar = l := by
    cases l with
    | nil => rfl
    | cons a t => simp [List.dropWhile_cons, h a (List.mem_cons_self a t)]
  rw [h1]
  have h2 : l.reverse.dropWhile wsChar = l.reverse := by
    cases hr : l.reverse with
    | nil => rfl
    | cons a t =>
      have ha : a ∈ l := by
        rw [← List.mem_reverse, hr]; exact List.mem_cons_self a t
      simp [List.dropWhile_cons, h a ha]
  rw [h2, List.reverse_reverse]



theorem joinNl_cons (l : Str) (ls : List Str) :
    joinNl (l :: ls) = l ++ '\n' :: joinNl ls := rfl

theorem joinNl_append (xs ys : List Str) :
    joinNl (xs ++ ys) = joinNl xs ++ joinNl ys := by
  induction xs with
  | nil => rfl
  | cons l xs2 ih =>
    simp only [List.cons_append, joinNl_cons, ih, List.append_assoc]

theorem linesOf_ne_nil (s : Str) (h : s ≠ []) : linesOf s = linesAux s [] := by
  cases s with
  | nil => exact absurd rfl h
  | cons a t => rfl

theorem linesAux_split (r : Str) : ∀ l acc : Str, (∀ c ∈ l, c ≠ '\n') →
    linesAux (l ++ '\n' :: r) acc =
      (match r with
       | [] => [acc.reverse ++ l]
       | _ :: _ => (acc.reverse ++ l) :: linesAux r []) := by
  intro l
  induction l with
  | nil =>
    intro acc h
    cases r <;> simp [linesAux]
  | cons c t ih =>
    intro acc h
    have hc : ¬ c = '\n' := h c (List.mem_cons_self c t)
    simp only [List.cons_append, linesAux, hc, ite_false, if_neg, List.append_eq]
    rw [ih (c :: acc) (fun d hd => h d (List.mem_cons_of_mem c hd))]
    cases r <;> simp

theorem linesOf_joinNl : ∀ ls : List Str, (∀ l ∈ ls, ∀ c ∈ l, c ≠ '\n') →
    linesOf (joinNl ls) = ls := by
  intro ls
  induction ls with
  | nil => intro _; rfl
  | cons l rest ih =>
    intro h
    rw [joinNl_cons]
    have hne : l ++ '\n' :: joinNl rest ≠ [] := by cases l <;> simp
    have hl : ∀ c ∈ l, c ≠ '\n' := h l (List.mem_cons_self l rest)
    rw [linesOf_ne_nil _ hne, linesAux_split (joinNl rest) l [] hl]
    cases hr : joinNl rest with
    | nil =>
      cases rest with
      | nil => simp
      | cons x xs => exact absurd hr (by cases x <;> simp [joinNl_cons])
    | cons a t =>
      have hrne : joinNl rest ≠ [] := by rw [hr]; simp
      simp only [List.reverse_nil, List.nil_append, List.cons.injEq, true_and]
      rw [← hr, ← linesOf_ne_nil _ hrne,
        ih (fun l2 hl2 => h l2 (List.mem_cons_of_mem _ hl2))]



theorem processLoop_nil (name ver : Str) (b : Bool) :
    processLoop name ver b [] = ([], false) := rfl

theorem processLoop_no_hdr (name ver : Str) :
    ∀ (B ys : List Str), (∀ l ∈ B, trimChars l ≠ hdrT) →
      processLoop name ver false (B ++ ys) =
        (B ++ (processLoop name ver false ys).1, (processLoop name ver false ys).2) := by
  intro B
  induction B with
  | nil => intro ys _; simp
  | cons l B2 ih =>
    intro ys h
    have hl : trimChars l ≠ hdrT := h l (List.mem_cons_self l B2)
    simp only [List.cons_append, processLoop, hl, ite_false, if_neg, ite_self,
      Bool.false_and, Bool.false_eq_true, List.append_eq, if_false]
    rw [ih ys (fun x hx => h x (List.mem_cons_of_mem l hx))]

theorem processLoop_hdr (name ver : Str) (hdrL : Str) (ys : List Str)
    (h : trimChars hdrL = hdrT) :
    processLoop name ver false (hdrL :: ys) =
      (hdrL :: (processLoop name ver true ys).1, (processLoop name ver true ys).2) := by
  simp [processLoop, h]

theorem processLoop_in_dep (name ver : Str) :
    ∀ (D ys : List Str),
      (∀ l ∈ D, (trimChars l).head? ≠ some '[' ∧ trimChars l ≠ hdrT) →
      processLoop name ver true (D ++ ys) =
        (D.map (qRepl name ver) ++ (processLoop name ver true ys).1,
         D.any (matchLine name) || (processLoop name ver true ys).2) := by
  intro D
  induction D with
  | nil => intro ys _; simp
  | cons l D2 ih =>
    intro ys h
    have hl := h l (List.mem_cons_self l D2)
    simp only [List.cons_append, processLoop, hl.2, ite_false, if_neg, hl.1,
      Bool.true_and, List.append_eq, if_false]
    rw [ih ys (fun x hx => h x (List.mem_cons_of_mem l hx))]
    cases hm : isPre (name ++ ['=']) (trimChars l) <;>
      simp [qRepl, matchLine, hm]

theorem processLoop_after (name ver : Str) :
    ∀ (A : List Str),
      (A = [] ∨ (∃ h2 A2, A = h2 :: A2 ∧ h2.head? = some '[' ∧
        ∀ l ∈ A, trimChars l ≠ hdrT)) →
      processLoop name ver true A = (A, false) := by
  intro A hA
  rcases hA with rfl | ⟨h2, A2, rfl, hhead, htrim⟩
  · rfl
  · have hh : trimChars h2 ≠ hdrT := htrim h2 (List.mem_cons_self h2 A2)
    have hth : (trimChars h2).head? = some '[' := trim_head_of_head (by decide) hhead
    simp only [processLoop, hh, ite_false, if_neg, hth, ite_true, if_pos,
      Bool.false_and, Bool.false_eq_true]
    have := processLoop_no_hdr name ver A2 []
      (fun x hx => htrim x (List.mem_cons_of_mem h2 hx))
    simp only [List.append_nil] at this
    rw [this]
    simp [processLoop_nil]

theorem phaseB_skip (name ver : Str) :
    ∀ (D ls : List Str),
      (∀ l ∈ D, containsSub hdrT l = false ∧ (trimChars l).head? ≠ some '[') →
      phaseB name ver (D ++ ls) = D ++ phaseB name ver ls := by
  intro D
  induction D with
  | nil => intro ls _; simp
  | cons l D2 ih =>
    intro ls h
    have hl := h l (List.mem_cons_self l D2)
    have hraw : l.head? ≠ some '[' := head_ne_of_trim_head hl.2
    simp only [List.cons_append, phaseB, hl.1, hraw, List.append_eq,
      Bool.false_eq_true, if_false, ite_false]
    rw [ih ls (fun x hx => h x (List.mem_cons_of_mem l hx))]

theorem phaseA_skip (name ver : Str) :
    ∀ (B ls : List Str), (∀ l ∈ B, containsSub hdrT l = false) →
      phaseA name ver (B ++ ls) = B ++ phaseA name ver ls := by
  intro B
  induction B with
  | nil => intro ls _; simp
  | cons l B2 ih =>
    intro ls h
    have hl : containsSub hdrT l = false := h l (List.mem_cons_self l B2)
    simp only [List.cons_append, phaseA, hl, List.append_eq,
      Bool.false_eq_true, if_false, ite_false]
    rw [ih ls (fun x hx => h x (List.mem_cons_of_mem l hx))]

theorem map_qRepl_of_not_any (name ver : Str) :
    ∀ D : List Str, D.any (matchLine name) = false →
      D.map (qRepl name ver) = D := by
  intro D
  induction D with
  | nil => intro _; rfl
  | cons l D2 ih =>
    intro h
    simp only [List.any_cons, Bool.or_eq_false_iff] at h
    simp [qRepl, h.1, ih h.2]

theorem processQuark_decomp (name ver : Str) (B D A : List Str) (hdrL : Str)
    (hB : ∀ l ∈ B, containsSub hdrT l = false)
    (hH : trimChars hdrL = hdrT)
    (hD : ∀ l ∈ D, containsSub hdrT l = false ∧ (trimChars l).head? ≠ some '[')
    (hA : A = [] ∨ (∃ h2 A2, A = h2 :: A2 ∧ h2.head? = some '[' ∧
        ∀ l ∈ A, containsSub hdrT l = false)) :
    processQuarkLines name ver (B ++ hdrL :: (D ++ A)) =
      B ++ hdrL :: ((if D.any (matchLine name) then D.map (qRepl name ver)
                     else D ++ [depEntryOf name ver]) ++ A) := by
  have hBtrim : ∀ l ∈ B, trimChars l ≠ hdrT :=
    fun l hl => trim_ne_of_not_contains (hB l hl)
  have hAshape : A = [] ∨ (∃ h2 A2, A = h2 :: A2 ∧ h2.head? = some '[' ∧
      ∀ l ∈ A, trimChars l ≠ hdrT) := by
    rcases hA with rfl | ⟨h2, A2, rfl, hhead, hcont⟩
    · exact Or.inl rfl
    · exact Or.inr ⟨h2, A2, rfl, hhead,
        fun l hl => trim_ne_of_not_contains (hcont l hl)⟩
  have hloop : processLoop name ver false (B ++ hdrL :: (D ++ A)) =
      (B ++ hdrL :: (D.map (qRepl name ver) ++ A), D.any (matchLine name)) := by
    rw [processLoop_no_hdr name ver B (hdrL :: (D ++ A)) hBtrim,
      processLoop_hdr name ver hdrL (D ++ A) hH,
      processLoop_in_dep name ver D A
        (fun l hl => ⟨(hD l hl).2, trim_ne_of_not_contains (hD l hl).1⟩),
      processLoop_after name ver A hAshape]
    simp
  unfold processQuarkLines
  rw [hloop]
  cases hm : D.any (matchLine name) with
  | true => simp
  | false =>
    simp only [ite_false, if_neg, Bool.false_eq_true, not_false_iff, if_false]
    rw [map_qRepl_of_not_any name ver D hm]
    have hhas : hasDepSection (B ++ hdrL :: (D ++ A)) = true := by
      unfold hasDepSection
      rw [List.any_eq_true]
      exact ⟨hdrL, by simp, containsSub_of_trim_eq hH⟩
    unfold insertIntoLines
    rw [hhas]
    simp only [ite_true, if_pos]
    rw [phaseA_skip name ver B (hdrL :: (D ++ A)) hB]
    have hcl : containsSub hdrT hdrL = true := containsSub_of_trim_eq hH
    simp only [phaseA, hcl, ite_true, if_pos]
    rw [phaseB_skip name ver D A hD]
    rcases hA with rfl | ⟨h2, A2, rfl, hhead, hcont⟩
    · simp [phaseB]
    · have hc2 : containsSub hdrT h2 = false :=
        hcont h2 (List.mem_cons_self h2 A2)
      simp [phaseB, hc2, hhead]



/-- C7, amended.  For a `.quark` file whose lines decompose into a prefix
`B` free of the substring `[dependencies]`, the section header, entry
lines `D` (not `[`-initial, substring-free), and a tail `A` that is empty
or starts at a `[`-headed section header, the update rewrites only the
entry region: the output is `B`, the header, some entry lines, and `A`,
re-serialized with every line followed by a newline. -/
theorem C7_outside_section_lines_preserved (name ver : Str) (B D A : List Str) (hdrL : Str)
    (hB : ∀ l ∈ B, containsSub hdrT l = false)
    (hH : trimChars hdrL = hdrT)
    (hD : ∀ l ∈ D, containsSub hdrT l = false ∧ (trimChars l).head? ≠ some '[')
    (hA : A = [] ∨ (∃ h2 A2, A = h2 :: A2 ∧ h2.head? = some '[' ∧
        ∀ l ∈ A, containsSub hdrT l = false))
    (hNl : ∀ l ∈ B ++ hdrL :: (D ++ A), ∀ c ∈ l, c ≠ '\n') :
    ∃ D2 : List Str,
      updateQuark name ver (joinNl (B ++ hdrL :: (D ++ A))) =
        joinNl (B ++ hdrL :: (D2 ++ A)) := by
  refine ⟨if D.any (matchLine name) then D.map (qRepl name ver)
          else D ++ [depEntryOf name ver], ?_⟩
  unfold updateQuark
  rw [linesOf_joinNl _ hNl, processQuark_decomp name ver B D A hdrL hB hH hD hA]

/-- C7, witness: the specification's own scenario — inserting `bar=2.0.0`
into a file with `[package]`, `[dependencies]` and `[other]` sections
leaves the lines outside `[dependencies]` in place. -/
theorem C7_witness :
    ∃ D2 : List Str,
      updateQuark (strL "bar") (strL "2.0.0")
        (joinNl ([strL "[package]", strL "name=demo", strL ""] ++
          strL "[dependencies]" :: ([strL "foo=1.2.3", strL ""] ++
            [strL "[other]", strL "k=v"]))) =
      joinNl ([strL "[package]", strL "name=demo", strL ""] ++
        strL "[dependencies]" :: (D2 ++ [strL "[other]", strL "k=v"])) := by
  exact C7_outside_section_lines_preserved (strL "bar") (strL "2.0.0")
    [strL "[package]", strL "name=demo", strL ""]
    [strL "foo=1.2.3", strL ""]
    [strL "[other]", strL "k=v"]
    (strL "[dependencies]")
    (by decide) (by decide) (by decide)
    (Or.inr ⟨strL "[other]", [strL "k=v"], rfl, by decide, by decide⟩)
    (by decide)



theorem depEntry_no_ws {name ver : Str}
    (hn2 : ∀ c ∈ name, wsChar c = false ∧ c ≠ '[')
    (hv2 : ∀ c ∈ ver, wsChar c = false ∧ c ≠ '[') :
    ∀ c ∈ depEntryOf name ver, wsChar c = false := by
  intro c hc
  unfold depEntryOf at hc
  rcases List.mem_append.mp hc with h | h
  · exact (hn2 c h).1
  · rcases List.mem_cons.mp h with rfl | h2
    · decide
    · exact (hv2 c h2).1

theorem depEntry_no_bracket {name ver : Str}
    (hn2 : ∀ c ∈ name, wsChar c = false ∧ c ≠ '[')
    (hv2 : ∀ c ∈ ver, wsChar c = false ∧ c ≠ '[') :
    '[' ∉ depEntryOf name ver := by
  intro hc
  unfold depEntryOf at hc
  rcases List.mem_append.mp hc with h | h
  · exact (hn2 '[' h).2 rfl
  · rcases List.mem_cons.mp h with h1 | h2
    · cases h1
    · exact (hv2 '[' h2).2 rfl

theorem depEntry_trim {name ver : Str}
    (hn2 : ∀ c ∈ name, wsChar c = false ∧ c ≠ '[')
    (hv2 : ∀ c ∈ ver, wsChar c = false ∧ c ≠ '[') :
    trimChars (depEntryOf name ver) = depEntryOf name ver :=
  trim_of_no_ws (depEntry_no_ws hn2 hv2)

theorem depEntry_match {name ver : Str}
    (hn2 : ∀ c ∈ name, wsChar c = false ∧ c ≠ '[')
    (hv2 : ∀ c ∈ ver, wsChar c = false ∧ c ≠ '[') :
    matchLine name (depEntryOf name ver) = true := by
  unfold matchLine
  rw [depEntry_trim hn2 hv2]
  have : depEntryOf name ver = (name ++ ['=']) ++ ver := by
    unfold depEntryOf
    rw [List.append_assoc]
    rfl
  rw [this]
  exact isPre_append_self (name ++ ['=']) ver

theorem depEntry_head {name ver : Str} (hn1 : name ≠ [])
    (hn2 : ∀ c ∈ name, wsChar c = false ∧ c ≠ '[')
    (hv2 : ∀ c ∈ ver, wsChar c = false ∧ c ≠ '[') :
    (trimChars (depEntryOf name ver)).head? ≠ some '[' := by
  rw [depEntry_trim hn2 hv2]
  cases hn : name with
  | nil => exact absurd hn hn1
  | cons c t =>
    have hc : c ≠ '[' := (hn2 c (by rw [hn]; exact List.mem_cons_self c t)).2
    unfold depEntryOf
    intro hcontra
    simp only [List.cons_append, List.head?_cons, Option.some.injEq] at hcontra
    exact hc hcontra

theorem depEntry_contains {name ver : Str}
    (hn2 : ∀ c ∈ name, wsChar c = false ∧ c ≠ '[')
    (hv2 : ∀ c ∈ ver, wsChar c = false ∧ c ≠ '[') :
    containsSub hdrT (depEntryOf name ver) = false :=
  containsSub_eq_false_of_not_mem '[' (by decide) (depEntry_no_bracket hn2 hv2)

theorem qRepl_idem {name ver : Str} (l : Str)
    (hn2 : ∀ c ∈ name, wsChar c = false ∧ c ≠ '[')
    (hv2 : ∀ c ∈ ver, wsChar c = false ∧ c ≠ '[') :
    qRepl name ver (qRepl name ver l) = qRepl name ver l := by
  unfold qRepl
  cases hm : matchLine name l with
  | false => simp [hm]
  | true => simp [hm, depEntry_match hn2 hv2]

theorem map_qRepl_idem {name ver : Str}
    (hn2 : ∀ c ∈ name, wsChar c = false ∧ c ≠ '[')
    (hv2 : ∀ c ∈ ver, wsChar c = false ∧ c ≠ '[') :
    ∀ D : List Str, (D.map (qRepl name ver)).map (qRepl name ver) =
      D.map (qRepl name ver) := by
  intro D
  induction D with
  | nil => rfl
  | cons l D2 ih => simp [qRepl_idem l hn2 hv2, ih]

theorem any_map_qRepl {name ver : Str}
    (hn2 : ∀ c ∈ name, wsChar c = false ∧ c ≠ '[')
    (hv2 : ∀ c ∈ ver, wsChar c = false ∧ c ≠ '[')
    (D : List Str) (h : D.any (matchLine name) = true) :
    (D.map (qRepl name ver)).any (matchLine name) = true := by
  rw [List.any_eq_true] at h ⊢
  obtain ⟨l, hl, hm⟩ := h
  refine ⟨depEntryOf name ver, ?_, depEntry_match hn2 hv2⟩
  rw [List.mem_map]
  exact ⟨l, hl, by simp [qRepl, hm]⟩

theorem quarkDep_props {name ver : Str} (hn1 : name ≠ [])
    (hn2 : ∀ c ∈ name, wsChar c = false ∧ c ≠ '[')
    (hv2 : ∀ c ∈ ver, wsChar c = false ∧ c ≠ '[')
    (D : List Str)
    (hD : ∀ l ∈ D, containsSub hdrT l = false ∧ (trimChars l).head? ≠ some '[') :
    let D2 := if D.any (matchLine name) then D.map (qRepl name ver)
              else D ++ [depEntryOf name ver]
    (∀ l ∈ D2, containsSub hdrT l = false ∧ (trimChars l).head? ≠ some '[') ∧
    D2.any (matchLine name) = true ∧
    D2.map (qRepl name ver) = D2 := by
  intro D2
  have hdepc := depEntry_contains hn2 hv2
  have hdeph := depEntry_head hn1 hn2 hv2
  have hdepm := depEntry_match hn2 hv2
  refine ⟨?_, ?_, ?_⟩
  · intro l hl
    by_cases hm : D.any (matchLine name) = true
    · simp only [D2, hm, ite_true, if_pos] at hl
      obtain ⟨x, hx, rfl⟩ := List.mem_map.mp hl
      unfold qRepl
      by_cases hmx : matchLine name x = true
      · simp [hmx, hdepc, hdeph]
      · simp only [hmx, ite_false, if_neg]
        exact hD x hx
    · simp only [D2, hm, ite_false, if_neg] at hl
      rcases List.mem_append.mp hl with h | h
      · exact hD l h
      · rcases List.mem_cons.mp h with rfl | h2
        · exact ⟨hdepc, hdeph⟩
        · cases h2
  · by_cases hm : D.any (matchLine name) = true
    · simp only [D2, hm, ite_true, if_pos]
      exact any_map_qRepl hn2 hv2 D hm
    · have hm2 : D.any (matchLine name) = false := by simpa using hm
      simp [D2, hm2, List.any_append, hdepm]
  · by_cases hm : D.any (matchLine name) = true
    · simp only [D2, hm, ite_true, if_pos]
      exact map_qRepl_idem hn2 hv2 D
    · have hm2 : D.any (matchLine name) = false := by simpa using hm
      simp [D2, hm2, List.map_append, map_qRepl_of_not_any name ver D hm2,
        qRepl, hdepm]



/-- C8, amended.  The `.quark` update for `install(name@v)` is idempotent
for every file whose lines either never contain the substring
`[dependencies]`, or decompose around one well-formed (trim-exact,
`[`-headed tail) `[dependencies]` header — given a nonempty `name` and
`version` free of whitespace and `[`. -/
theorem C8_update_idempotent (name ver : Str) (ls : List Str)
    (hn1 : name ≠ [])
    (hn2 : ∀ c ∈ name, wsChar c = false ∧ c ≠ '[')
    (hv2 : ∀ c ∈ ver, wsChar c = false ∧ c ≠ '[')
    (hNl : ∀ l ∈ ls, ∀ c ∈ l, c ≠ '\n')
    (hShape : (∀ l ∈ ls, containsSub hdrT l = false) ∨
      (∃ B hdrL D A, ls = B ++ hdrL :: (D ++ A) ∧
        (∀ l ∈ B, containsSub hdrT l = false) ∧
        trimChars hdrL = hdrT ∧
        (∀ l ∈ D, containsSub hdrT l = false ∧ (trimChars l).head? ≠ some '[') ∧
        (A = [] ∨ (∃ h2 A2, A = h2 :: A2 ∧ h2.head? = some '[' ∧
          ∀ l ∈ A, containsSub hdrT l = false)))) :
    updateQuark name ver (updateQuark name ver (joinNl ls)) =
      updateQuark name ver (joinNl ls) := by
  have hdepnl : ∀ c ∈ depEntryOf name ver, c ≠ '\n' := by
    intro c hc h
    have hws := depEntry_no_ws hn2 hv2 c hc
    rw [h] at hws
    exact absurd hws (by decide)
  have step1 : updateQuark name ver (joinNl ls) =
      joinNl (processQuarkLines name ver ls) := by
    unfold updateQuark
    rw [linesOf_joinNl ls hNl]
  rcases hShape with hAll | ⟨B, hdrL, D, A, rfl, hB, hH, hD, hA⟩
  · -- no line mentions [dependencies]: the update appends a fresh section
    have hTrim : ∀ l ∈ ls, trimChars l ≠ hdrT :=
      fun l hl => trim_ne_of_not_contains (hAll l hl)
    have hloop : processLoop name ver false ls = (ls, false) := by
      have h2 := processLoop_no_hdr name ver ls [] hTrim
      rw [List.append_nil] at h2
      rw [h2, processLoop_nil]
      simp
    have hout1 : processQuarkLines name ver ls =
        ls ++ [[], hdrT, depEntryOf name ver] := by
      unfold processQuarkLines
      rw [hloop]
      have hhas : hasDepSection ls = false := by
        unfold hasDepSection
        rw [List.any_eq_false]
        intro l hl
        simp [hAll l hl]
      simp [insertIntoLines, hhas]
    have hsplit : ls ++ [[], hdrT, depEntryOf name ver] =
        (ls ++ [([] : Str)]) ++ hdrT :: ([depEntryOf name ver] ++ []) := by simp
    have hB2 : ∀ l ∈ ls ++ [([] : Str)], containsSub hdrT l = false := by
      intro l hl
      rcases List.mem_append.mp hl with h | h
      · exact hAll l h
      · rcases List.mem_cons.mp h with rfl | h2
        · decide
        · cases h2
    have hD2 : ∀ l ∈ [depEntryOf name ver],
        containsSub hdrT l = false ∧ (trimChars l).head? ≠ some '[' := by
      intro l hl
      rcases List.mem_cons.mp hl with rfl | h2
      · exact ⟨depEntry_contains hn2 hv2, depEntry_head hn1 hn2 hv2⟩
      · cases h2
    have hfix : processQuarkLines name ver (ls ++ [[], hdrT, depEntryOf name ver]) =
        ls ++ [[], hdrT, depEntryOf name ver] := by
      rw [hsplit, processQuark_decomp name ver (ls ++ [([] : Str)])
        [depEntryOf name ver] [] hdrT hB2 (by decide) hD2 (Or.inl rfl)]
      have hany : ([depEntryOf name ver] : List Str).any (matchLine name) = true := by
        simp [depEntry_match hn2 hv2]
      rw [hany]
      simp [qRepl, depEntry_match hn2 hv2]
    have hNl1 : ∀ l ∈ ls ++ [[], hdrT, depEntryOf name ver], ∀ c ∈ l, c ≠ '\n' := by
      intro l hl
      rcases List.mem_append.mp hl with h | h
      · exact hNl l h
      · rcases List.mem_cons.mp h with rfl | h2
        · intro c hc; cases hc
        · rcases List.mem_cons.mp h2 with rfl | h3
          · intro c hc
            intro h4
            rw [h4] at hc
            exact absurd hc (by decide)
          · rcases List.mem_cons.mp h3 with rfl | h4
            · exact hdepnl
            · cases h4
    rw [step1, hout1]
    unfold updateQuark
    rw [linesOf_joinNl _ hNl1, hfix]
  · -- a well-formed [dependencies] section is present
    have hdec := processQuark_decomp name ver B D A hdrL hB hH hD hA
    obtain ⟨hq1, hq2, hq3⟩ := quarkDep_props hn1 hn2 hv2 D hD
    have hD2mem : ∀ l ∈ (if D.any (matchLine name) then D.map (qRepl name ver)
        else D ++ [depEntryOf name ver]), l ∈ D ∨ l = depEntryOf name ver := by
      intro l hl
      by_cases hm : D.any (matchLine name) = true
      · rw [if_pos hm] at hl
        obtain ⟨x, hx, rfl⟩ := List.mem_map.mp hl
        unfold qRepl
        by_cases hmx : matchLine name x = true
        · rw [if_pos hmx]; exact Or.inr rfl
        · rw [if_neg hmx]; exact Or.inl hx
      · rw [if_neg hm] at hl
        rcases List.mem_append.mp hl with h | h
        · exact Or.inl h
        · rcases List.mem_cons.mp h with rfl | h2
          · exact Or.inr rfl
          · cases h2
    have hNl1 : ∀ l ∈ B ++ hdrL :: ((if D.any (matchLine name) then
        D.map (qRepl name ver) else D ++ [depEntryOf name ver]) ++ A),
        ∀ c ∈ l, c ≠ '\n' := by
      intro l hl
      rcases List.mem_append.mp hl with h | h
      · exact hNl l (List.mem_append.mpr (Or.inl h))
      · rcases List.mem_cons.mp h with rfl | h2
        · exact hNl l (List.mem_append.mpr (Or.inr (List.mem_cons_self _ _)))
        · rcases List.mem_append.mp h2 with h3 | h3
          · rcases hD2mem l h3 with h4 | rfl
            · exact hNl l (List.mem_append.mpr (Or.inr (List.mem_cons_of_mem _
                (List.mem_append.mpr (Or.inl h4)))))
            · exact hdepnl
          · exact hNl l (List.mem_append.mpr (Or.inr (List.mem_cons_of_mem _
              (List.mem_append.mpr (Or.inr h3)))))
    have hfix : processQuarkLines name ver (B ++ hdrL :: ((if D.any (matchLine name)
        then D.map (qRepl name ver) else D ++ [depEntryOf name ver]) ++ A)) =
        B ++ hdrL :: ((if D.any (matchLine name) then D.map (qRepl name ver)
          else D ++ [depEntryOf name ver]) ++ A) := by
      rw [processQuark_decomp name ver B _ A hdrL hB hH hq1 hA, hq2,
        if_pos rfl, hq3]
    rw [step1, hdec]
    unfold updateQuark
    rw [linesOf_joinNl _ hNl1, hfix]


/-- C8, witness: two runs of the update for `foo@2.0.0` on a well-formed
sectioned file coincide with one run. -/
theorem C8_witness :
    updateQuark (strL "foo") (strL "2.0.0")
        (updateQuark (strL "foo") (strL "2.0.0")
          (joinNl [strL "[package]", strL "name=demo", strL "",
            strL "[dependencies]", strL "foo=1.2.3", strL "[other]", strL "k=v"])) =
      updateQuark (strL "foo") (strL "2.0.0")
        (joinNl [strL "[package]", strL "name=demo", strL "",
          strL "[dependencies]", strL "foo=1.2.3", strL "[other]", strL "k=v"]) := by
  exact C8_update_idempotent (strL "foo") (strL "2.0.0")
    [strL "[package]", strL "name=demo", strL "",
      strL "[dependencies]", strL "foo=1.2.3", strL "[other]", strL "k=v"]
    (by decide) (by decide) (by decide) (by decide)
    (Or.inr ⟨[strL "[package]", strL "name=demo", strL ""],
      strL "[dependencies]", [strL "foo=1.2.3"], [strL "[other]", strL "k=v"],
      by decide, by decide, by decide, by decide,
      Or.inr ⟨strL "[other]", [strL "k=v"], rfl, by decide, by decide⟩⟩)

end Box
